import Mathlib

/-!
Verification of the data-ingestion and aggregation pipeline of the
Banco de Sangue Digital dashboard (`app.py`).

The development shallowly embeds the pipeline:

* `uf_para_sigla` / `strip_accents_upper` — the region normalizer
  (`app.py` lines 93-104).  Python's `unicodedata.normalize("NFD", s)
  .encode("ascii","ignore")` is modelled by `deaccentChar`: ASCII
  characters are kept, accented Latin letters are mapped to their base
  letter, any other character is dropped.  Python's `str.upper` is
  modelled by `upChar` on the ASCII range (all inputs reaching it in the
  lookup branch are ASCII-only, having passed through `deaccentChar`).
* `to_numeric_safe` / `parseDecimal` — the numeric text parser
  (`app.py` lines 181-185): remove every '.', turn ',' into '.', then
  parse with pandas `to_numeric(errors="coerce")`.  Parse failure (NaN)
  is modelled as `none`; parsed floats are modelled as exact rationals.
* `filtraAno` / `anoRecente` — the year filter (`app.py` lines 244-274).
* `agrega` / `grupoSemCorrecao` / `corrige` — the groupby-aggregate
  pipeline with the RJ/SP zero-sum correction (`app.py` lines 280-315).
  pandas groupby-sum skips NaN (so an all-NaN group sums to 0.0, never
  NaN); this is modelled by `Option.getD 0` in `groupSum`.
* `read_csv_robusto` — the delimiter-fallback chain (`app.py` lines
  116-143), with `pd.read_csv` kept abstract as a `reader` parameter and
  the `BytesIO` cursor modelled explicitly (a read consumes the buffer
  to its end; `seek 0` is issued between attempts only for uploads).
-/

set_option maxRecDepth 100000

/-- Lookup in an association list of characters (decidable equality). -/
def lookupChar (c : Char) : List (Char × Char) → Option Char
  | [] => none
  | (k, v) :: t => if c = k then some v else lookupChar c t

/-- Lowercase ASCII letters paired with their uppercase forms. -/
def lowerUpperTable : List (Char × Char) :=
  [('a', 'A'), ('b', 'B'), ('c', 'C'), ('d', 'D'), ('e', 'E'), ('f', 'F'),
   ('g', 'G'), ('h', 'H'), ('i', 'I'), ('j', 'J'), ('k', 'K'), ('l', 'L'),
   ('m', 'M'), ('n', 'N'), ('o', 'O'), ('p', 'P'), ('q', 'Q'), ('r', 'R'),
   ('s', 'S'), ('t', 'T'), ('u', 'U'), ('v', 'V'), ('w', 'W'), ('x', 'X'),
   ('y', 'Y'), ('z', 'Z')]

/-- Model of Python `str.upper` at characters whose uppercase form is a
single character; the one-to-many case mappings are handled by
`upStrChar` below. -/
def upChar (c : Char) : Char := (lookupChar c lowerUpperTable).getD c

/-- Lookup in an association list from characters to character lists. -/
def lookupExp (c : Char) : List (Char × List Char) → Option (List Char)
  | [] => none
  | (k, v) :: t => if c = k then some v else lookupExp c t

/-- The one-to-many Unicode uppercase mappings: Python `str.upper` maps
these single characters to multi-character strings (full case mapping),
e.g. `'ß'.upper() == "SS"`. -/
def upExpandTable : List (Char × List Char) :=
  [('ß', ['S', 'S']), ('ﬀ', ['F', 'F']), ('ﬁ', ['F', 'I']),
   ('ﬂ', ['F', 'L']), ('ﬃ', ['F', 'F', 'I']), ('ﬄ', ['F', 'F', 'L']),
   ('ﬅ', ['S', 'T']), ('ﬆ', ['S', 'T'])]

/-- Python `str.upper` at one character: a (possibly expanding) list of
characters. -/
def upStrChar (c : Char) : List Char := (lookupExp c upExpandTable).getD [upChar c]

/-- Python `str.upper` on a whole string (character list): concatenates
the per-character uppercase forms, so the result can be longer than the
input. -/
def upStr : List Char → List Char
  | [] => []
  | c :: t => upStrChar c ++ upStr t

/-- Accented Latin letters paired with their unaccented base letter, as
produced by NFD decomposition followed by dropping non-ASCII code points. -/
def accentTable : List (Char × Char) :=
  [('á', 'a'), ('à', 'a'), ('â', 'a'), ('ã', 'a'), ('ä', 'a'),
   ('é', 'e'), ('è', 'e'), ('ê', 'e'), ('ë', 'e'),
   ('í', 'i'), ('ì', 'i'), ('î', 'i'), ('ï', 'i'),
   ('ó', 'o'), ('ò', 'o'), ('ô', 'o'), ('õ', 'o'), ('ö', 'o'),
   ('ú', 'u'), ('ù', 'u'), ('û', 'u'), ('ü', 'u'), ('ç', 'c'), ('ñ', 'n'),
   ('Á', 'A'), ('À', 'A'), ('Â', 'A'), ('Ã', 'A'), ('Ä', 'A'),
   ('É', 'E'), ('È', 'E'), ('Ê', 'E'), ('Ë', 'E'),
   ('Í', 'I'), ('Ì', 'I'), ('Î', 'I'), ('Ï', 'I'),
   ('Ó', 'O'), ('Ò', 'O'), ('Ô', 'O'), ('Õ', 'O'), ('Ö', 'O'),
   ('Ú', 'U'), ('Ù', 'U'), ('Û', 'U'), ('Ü', 'U'), ('Ç', 'C'), ('Ñ', 'N')]

/-- Model of `unicodedata.normalize("NFD", ·).encode("ascii", "ignore")`
at character granularity: keep ASCII, de-accent Latin letters, drop the
rest. -/
def deaccentChar (c : Char) : Option Char :=
  if c.toNat ≤ 127 then some c else lookupChar c accentTable

/-- Uppercase ASCII letters paired with lowercase forms, together with the
accented capitals used in the canonical region names; models Python
`str.lower` on the relevant alphabet (used to build test inputs). -/
def upperLowerTable : List (Char × Char) :=
  [('A', 'a'), ('B', 'b'), ('C', 'c'), ('D', 'd'), ('E', 'e'), ('F', 'f'),
   ('G', 'g'), ('H', 'h'), ('I', 'i'), ('J', 'j'), ('K', 'k'), ('L', 'l'),
   ('M', 'm'), ('N', 'n'), ('O', 'o'), ('P', 'p'), ('Q', 'q'), ('R', 'r'),
   ('S', 's'), ('T', 't'), ('U', 'u'), ('V', 'v'), ('W', 'w'), ('X', 'x'),
   ('Y', 'y'), ('Z', 'z'),
   ('Á', 'á'), ('À', 'à'), ('Â', 'â'), ('Ã', 'ã'), ('É', 'é'), ('Ê', 'ê'),
   ('Í', 'í'), ('Ó', 'ó'), ('Ô', 'ô'), ('Õ', 'õ'), ('Ú', 'ú'), ('Ç', 'ç')]

/-- Character-wise lowercase (Python `str.lower` on the alphabet above). -/
def downChar (c : Char) : Char := (lookupChar c upperLowerTable).getD c

/-- Lowercase an entire string; used to state case-insensitivity. -/
def lowerStr (s : String) : String := ⟨s.data.map downChar⟩

/-- Python `str.strip` on the left: drop leading whitespace. -/
def trimL (l : List Char) : List Char := l.dropWhile Char.isWhitespace

/-- Python `str.strip` on the right: drop trailing whitespace. -/
def trimR (l : List Char) : List Char := (trimL l.reverse).reverse

/-- Python `str.strip`: drop leading and trailing whitespace. -/
def trimBoth (l : List Char) : List Char := trimR (trimL l)

/-- Split a character list into maximal whitespace-free words, dropping
all whitespace, as Python `str.split()` does.  The first argument is an
accumulator holding the current word reversed. -/
def wordsAux : List Char → List Char → List (List Char)
  | acc, [] => if acc.isEmpty then [] else [acc.reverse]
  | acc, c :: t =>
    if c.isWhitespace then
      if acc.isEmpty then wordsAux [] t else acc.reverse :: wordsAux [] t
    else wordsAux (c :: acc) t

/-- Python `str.split()`. -/
def wordsOf (l : List Char) : List (List Char) := wordsAux [] l

/-- Python `" ".join(words)`. -/
def joinWords : List (List Char) → List Char
  | [] => []
  | [w] => w
  | w :: ws => w ++ ' ' :: joinWords ws

/-- Model of `strip_accents_upper` (`app.py` lines 93-95): strip accents
to ASCII, uppercase, collapse internal whitespace. -/
def strip_accents_upper (s : String) : String :=
  ⟨joinWords (wordsOf ((s.data.filterMap deaccentChar).map upChar))⟩

/-- Lookup in a string-keyed association list (models `dict.get`). -/
def lookupStr (k : String) : List (String × String) → Option String
  | [] => none
  | (a, b) :: t => if k = a then some b else lookupStr k t

/-- The name→code table `UF_NOMES` (`app.py` lines 44-55). -/
def UF_NOMES : List (String × String) :=
  [("ACRE", "AC"), ("ALAGOAS", "AL"), ("AMAPA", "AP"), ("AMAPÁ", "AP"),
   ("AMAZONAS", "AM"), ("BAHIA", "BA"), ("CEARA", "CE"), ("CEARÁ", "CE"),
   ("DISTRITO FEDERAL", "DF"), ("ESPIRITO SANTO", "ES"),
   ("ESPÍRITO SANTO", "ES"), ("GOIAS", "GO"), ("GOIÁS", "GO"),
   ("MARANHAO", "MA"), ("MARANHÃO", "MA"), ("MATO GROSSO DO SUL", "MS"),
   ("MATO GROSSO", "MT"), ("MINAS GERAIS", "MG"), ("PARA", "PA"),
   ("PARÁ", "PA"), ("PARAIBA", "PB"), ("PARAÍBA", "PB"), ("PARANA", "PR"),
   ("PARANÁ", "PR"), ("PERNAMBUCO", "PE"), ("PIAUI", "PI"), ("PIAUÍ", "PI"),
   ("RIO DE JANEIRO", "RJ"), ("RIO GRANDE DO NORTE", "RN"),
   ("RIO GRANDE DO SUL", "RS"), ("RONDONIA", "RO"), ("RONDÔNIA", "RO"),
   ("RORAIMA", "RR"), ("SANTA CATARINA", "SC"), ("SAO PAULO", "SP"),
   ("SÃO PAULO", "SP"), ("SERGIPE", "SE"), ("TOCANTINS", "TO")]

/-- The centroid table `UF_CENTER` (`app.py` lines 31-41); its key set is
the canonical set of 27 federative-unit codes. -/
def UF_CENTER : List (String × ℚ × ℚ) :=
  [("AC", (-9.0238, -70.8120)), ("AL", (-9.5713, -36.7820)),
   ("AM", (-3.4168, -65.8561)), ("AP", (1.4156, -51.6022)),
   ("BA", (-12.9694, -41.5556)), ("CE", (-5.4984, -39.3206)),
   ("DF", (-15.7998, -47.8645)), ("ES", (-19.6113, -40.1853)),
   ("GO", (-15.8270, -49.8362)), ("MA", (-4.9609, -45.2744)),
   ("MG", (-18.5122, -44.5550)), ("MS", (-20.7722, -54.7852)),
   ("MT", (-12.6819, -55.6370)), ("PA", (-3.8431, -52.2500)),
   ("PB", (-7.1219, -36.7240)), ("PE", (-8.8137, -36.9541)),
   ("PI", (-7.7183, -42.7289)), ("PR", (-24.4842, -51.8625)),
   ("RJ", (-22.1700, -42.0000)), ("RN", (-5.4026, -36.9541)),
   ("RO", (-10.83, -63.34)), ("RR", (2.7376, -62.0751)),
   ("RS", (-29.3344, -53.5000)), ("SC", (-27.2423, -50.2189)),
   ("SE", (-10.5741, -37.3857)), ("SP", (-22.19, -48.79)),
   ("TO", (-10.1753, -48.2982))]

/-- The canonical region codes: the key set of `UF_CENTER`. -/
def UF_SIGLAS : List String := UF_CENTER.map Prod.fst

/-- Model of `uf_para_sigla` (`app.py` lines 97-104): blank input gives
`none`; a trimmed value of at most two characters is uppercased and
returned as-is; otherwise the accent-stripped uppercased value is looked
up in `UF_NOMES`. -/
def uf_para_sigla (valor : String) : Option String :=
  if trimBoth valor.data = [] then none
  else if (trimBoth valor.data).length ≤ 2 then
    some ⟨upStr (trimBoth valor.data)⟩
  else lookupStr (strip_accents_upper ⟨trimBoth valor.data⟩) UF_NOMES

/-- Numeric value of a decimal digit character. -/
def digitVal (c : Char) : ℕ := c.toNat - 48

/-- Value of a list of decimal digit characters, most significant first. -/
def digitsToNat (ds : List Char) : ℕ := ds.foldl (fun a c => 10 * a + digitVal c) 0

/-- Optional leading sign of a float literal: returns whether the value
is negated, and the remaining characters. -/
def parseSign (cs : List Char) : Bool × List Char :=
  match cs with
  | [] => (false, [])
  | c :: t => if c = '-' then (true, t) else if c = '+' then (false, t) else (false, c :: t)

/-- Exponent suffix of a float literal (after `e`/`E`): optional sign then
digits; scales the mantissa by the corresponding power of ten. -/
def parseExp (m : ℚ) (cs : List Char) : Option ℚ :=
  let se := parseSign cs
  let ed := se.2.takeWhile Char.isDigit
  if ed.isEmpty then none
  else if (se.2.dropWhile Char.isDigit).isEmpty then
    some (if se.1 then m / 10 ^ digitsToNat ed else m * 10 ^ digitsToNat ed)
  else none

/-- Continuation of the float parse after the integer digit group `ip`:
the remainder may be empty, a fractional part introduced by '.', or an
exponent introduced by `e`/`E`; anything else fails. -/
def parseAfterIntPart (ip : List Char) : List Char → Option ℚ
  | [] => if ip.isEmpty then none else some (digitsToNat ip : ℚ)
  | c :: t =>
    if c = '.' then
      if ip.isEmpty && (t.takeWhile Char.isDigit).isEmpty then none
      else if (t.dropWhile Char.isDigit).isEmpty then
        some ((digitsToNat ip : ℚ) +
          (digitsToNat (t.takeWhile Char.isDigit) : ℚ) /
            10 ^ (t.takeWhile Char.isDigit).length)
      else
        match t.dropWhile Char.isDigit with
        | [] => none
        | c2 :: t2 =>
          if c2 = 'e' ∨ c2 = 'E' then
            parseExp ((digitsToNat ip : ℚ) +
              (digitsToNat (t.takeWhile Char.isDigit) : ℚ) /
                10 ^ (t.takeWhile Char.isDigit).length) t2
          else none
    else if c = 'e' ∨ c = 'E' then
      if ip.isEmpty then none else parseExp (digitsToNat ip : ℚ) t
    else none

/-- Model of the numeric parse performed by
`pd.to_numeric(errors="coerce")` on a single cell: optional sign, digits,
optional fractional part, optional exponent, surrounded by optional
whitespace.  A failed parse (pandas NaN) is `none`; parsed values are
exact rationals. -/
def parseDecimal (s : String) : Option ℚ :=
  let sg := parseSign (trimBoth s.data)
  let ip := sg.2.takeWhile Char.isDigit
  (parseAfterIntPart ip (sg.2.dropWhile Char.isDigit)).map
    fun q => if sg.1 then -q else q

/-- Python `str.replace(".", "")`. -/
def removeDots (s : String) : String := ⟨s.data.filter (fun c => c != '.')⟩

/-- Python `str.replace(",", ".")`. -/
def commaToDot (s : String) : String :=
  ⟨s.data.map (fun c => if c = ',' then '.' else c)⟩

/-- Model of `to_numeric_safe` (`app.py` lines 181-185) on one cell:
remove every '.', turn ',' into '.', then coerce to a number, `none` on
failure. -/
def to_numeric_safe (s : String) : Option ℚ :=
  parseDecimal (commaToDot (removeDots s))

/-- One row of the loaded table, restricted to the three columns the
aggregation reads: the year column, the region column and the selected
metric column.  All cells are raw strings (`dtype=str`); a missing cell
is the string a pandas NaN renders to under `astype(str)`. -/
structure Row where
  ano : String
  uf : String
  met : String
deriving DecidableEq

/-- The year selection of an aggregation request: `(Todos)`,
`(Mais recente)`, or a literal year from the sorted integer year list. -/
inductive AnoFiltro where
  | todos : AnoFiltro
  | maisRecente : AnoFiltro
  | literal : ℤ → AnoFiltro
deriving DecidableEq

/-- The aggregation mode: `Soma` or `Contagem`. -/
inductive Oper where
  | soma : Oper
  | contagem : Oper
deriving DecidableEq

/-- Numeric values parseable from the year column
(`pd.to_numeric(df[col_ano], errors="coerce")` followed by `dropna`). -/
def anosNum (rows : List Row) : List ℚ :=
  rows.filterMap (fun r => parseDecimal r.ano)

/-- Maximum of a list of rationals (pandas `Series.max()` on the
parseable year values); `none` on an empty list.  `maxQAux` folds `max`
over the tail. -/
def maxQAux (q : ℚ) : List ℚ → ℚ
  | [] => q
  | x :: t => maxQAux (max q x) t

/-- Maximum of a list of rationals, `none` when empty. -/
def maxQ : List ℚ → Option ℚ
  | [] => none
  | q :: t => some (maxQAux q t)

/-- Python `int(·)` on a float: truncation toward zero. -/
def ratTrunc (q : ℚ) : ℤ := if q < 0 then -⌊-q⌋ else ⌊q⌋

/-- Decimal rendering of an integer, Python `str(int)`. -/
def intStr (n : ℤ) : String := toString n

/-- The value `ano_recente` (`app.py` line 250): `int` of the maximum of
the numerically parseable year values, `none` if no year parses. -/
def anoRecente (rows : List Row) : Option ℤ :=
  match maxQ (anosNum rows) with
  | none => none
  | some q => some (ratTrunc q)

/-- The year filter (`app.py` lines 270-274): `(Todos)` keeps every row;
`(Mais recente)` keeps rows whose year cell equals `str(ano_recente)`
(no filtering when no year parses, mirroring the
`ano_recente is not None` guard); a literal year keeps rows whose year
cell equals `str(ano)`. -/
def filtraAno (esc : AnoFiltro) (rows : List Row) : List Row :=
  match esc with
  | AnoFiltro.todos => rows
  | AnoFiltro.maisRecente =>
    match anoRecente rows with
    | none => rows
    | some a => rows.filter (fun r => r.ano == intStr a)
  | AnoFiltro.literal y => rows.filter (fun r => r.ano == intStr y)

/-- Python `.astype(str).str.upper().str.strip()` applied to one cell. -/
def upperStripStr (s : String) : String := ⟨trimBoth (upStr s.data)⟩

/-- The normalized region of one row (`app.py` lines 281-282):
`uf_para_sigla`, falling back to the raw value uppercased and stripped
when the normalizer returns null. -/
def ufNorm (raw : String) : String :=
  (uf_para_sigla raw).getD (upperStripStr raw)

/-- The per-row contribution `__valor__` (`app.py` lines 285-289): the
parsed metric cell under `Soma`, the constant 1.0 under `Contagem`. -/
def rowValor (o : Oper) (r : Row) : Option ℚ :=
  match o with
  | Oper.soma => to_numeric_safe r.met
  | Oper.contagem => some (1 : ℚ)

/-- Add `v` to the entry of key `k` of an association list, appending a
new entry when the key is absent. -/
def upsert (k : String) (v : ℚ) : List (String × ℚ) → List (String × ℚ)
  | [] => [(k, v)]
  | (k0, v0) :: t => if k0 = k then (k0, v0 + v) :: t else (k0, v0) :: upsert k v t

/-- pandas `groupby("__uf__")["__valor__"].sum()`: one entry per distinct
key, holding the sum of the group's values with NaN contributing 0
(pandas sums with `skipna=True`, so an all-NaN group yields 0.0). -/
def groupSum (l : List (String × Option ℚ)) : List (String × ℚ) :=
  l.foldl (fun acc kv => upsert kv.1 (kv.2.getD 0) acc) []

/-- The aggregated table before the RJ/SP correction (`app.py` lines
291-297): group rows by normalized region summing `__valor__`, re-apply
upper/strip to the group keys, and keep only keys among the canonical
`UF_CENTER` codes. -/
def grupoSemCorrecao (o : Oper) (rows : List Row) : List (String × ℚ) :=
  (((groupSum (rows.map fun r => (ufNorm r.uf, rowValor o r))).map
      fun p => (upperStripStr p.1, p.2)).filter
    fun p => UF_SIGLAS.contains p.1)

/-- Row count of a region in the filtered table (`app.py` lines 304-310:
`df_ag[df_ag["__uf__"].isin(alvo)].groupby("__uf__").size()` looked up at
one key of the target set). -/
def contaUf (rows : List Row) (uf : String) : ℕ :=
  (rows.filter fun r => ufNorm r.uf == uf).length

/-- The correction applied to one aggregated entry (`app.py` lines
299-315): when the key is RJ or SP and the summed value is zero (pandas
group sums are never NaN, so the `isna` disjunct of line 302 cannot
hold), replace the value by the region's row count, provided that count
is available (`if not cont.empty`). -/
def corrigeEntry (rows : List Row) (p : String × ℚ) : String × ℚ :=
  if (p.1 = "RJ" ∨ p.1 = "SP") ∧ p.2 = 0 then
    if 0 < contaUf rows p.1 then (p.1, (contaUf rows p.1 : ℚ)) else p
  else p

/-- The RJ/SP zero-sum correction pass over the aggregated table. -/
def corrige (rows : List Row) (grupo : List (String × ℚ)) : List (String × ℚ) :=
  grupo.map (corrigeEntry rows)

/-- The aggregation engine (`app.py` lines 285-315) on the year-filtered
rows: build the grouped table, then apply the correction exactly when the
mode is `Soma`. -/
def agrega (o : Oper) (rows : List Row) : List (String × ℚ) :=
  match o with
  | Oper.soma => corrige rows (grupoSemCorrecao Oper.soma rows)
  | Oper.contagem => grupoSemCorrecao Oper.contagem rows

/-- Sum of the values of an aggregated table
(`float(grupo["valor"].sum())`). -/
def somaValores (l : List (String × ℚ)) : ℚ := (l.map Prod.snd).sum

/-- Delimiter strategy of one `pd.read_csv` attempt: `sep=None` with
sniffing, forced `sep=";"`, or forced `sep=","`. -/
inductive SepModo where
  | sniff : SepModo
  | semi : SepModo
  | comma : SepModo
deriving DecidableEq

/-- A parsed dataframe: the list of data rows. `df.empty` is emptiness of
this list. -/
abbrev Tabela := List (List String)

/-- The portion of a byte source an attempt reads (`app.py` lines
118-122): an uploaded byte buffer is read from its current cursor to the
end, while a URL source is fully re-fetched by every attempt. -/
def viewBuf (payload : List ℕ) (uploaded : Bool) (pos : ℕ) : List ℕ :=
  if uploaded then payload.drop pos else payload

/-- Outcome of one guarded attempt (`app.py` lines 124-138): a raised
exception or an empty dataframe falls through to the next strategy. -/
def tryNonEmpty (r : Except String Tabela) : Option Tabela :=
  match r with
  | Except.ok t => if t.isEmpty then none else some t
  | Except.error _ => none

/-- Model of `read_csv_robusto` (`app.py` lines 116-143).  `reader`
abstracts `pd.read_csv` with a given delimiter strategy on the bytes it
is handed.  After an attempt the `BytesIO` cursor sits at the end of the
buffer; `buf.seek(0)` is issued before attempts two and three only when
`uploaded`.  The first two attempts are accepted when they produce a
non-empty dataframe; the third is returned unconditionally, so only its
exception propagates to the caller. -/
def read_csv_robusto (reader : SepModo → List ℕ → Except String Tabela)
    (payload : List ℕ) (uploaded : Bool) : Except String Tabela :=
  let r1 := reader SepModo.sniff (viewBuf payload uploaded 0)
  match tryNonEmpty r1 with
  | some t => Except.ok t
  | none =>
    let pos2 := if uploaded then 0 else payload.length
    let r2 := reader SepModo.semi (viewBuf payload uploaded pos2)
    match tryNonEmpty r2 with
    | some t => Except.ok t
    | none =>
      let pos3 := if uploaded then 0 else payload.length
      reader SepModo.comma (viewBuf payload uploaded pos3)


theorem lookupChar_mem {t : List (Char × Char)} {c v : Char}
    (h : lookupChar c t = some v) : (c, v) ∈ t := by
  induction t with
  | nil => simp [lookupChar] at h
  | cons p t ih =>
    obtain ⟨k, w⟩ := p
    rw [lookupChar] at h
    by_cases hck : c = k
    · subst hck
      rw [if_pos rfl] at h
      injection h with h
      subst h
      exact List.mem_cons_self _ _
    · rw [if_neg hck] at h
      exact List.mem_cons_of_mem _ (ih h)

theorem lookupStr_mem {t : List (String × String)} {k v : String}
    (h : lookupStr k t = some v) : (k, v) ∈ t := by
  induction t with
  | nil => simp [lookupStr] at h
  | cons p t ih =>
    obtain ⟨a, b⟩ := p
    rw [lookupStr] at h
    by_cases hka : k = a
    · subst hka
      rw [if_pos rfl] at h
      injection h with h
      subst h
      exact List.mem_cons_self _ _
    · rw [if_neg hka] at h
      exact List.mem_cons_of_mem _ (ih h)

theorem upChar_idem (c : Char) : upChar (upChar c) = upChar c := by
  cases h : lookupChar c lowerUpperTable with
  | none => simp [upChar, h]
  | some u =>
    have hu : (c, u) ∈ lowerUpperTable := lookupChar_mem h
    have hvals : ∀ p ∈ lowerUpperTable, lookupChar p.2 lowerUpperTable = none := by decide
    simp [upChar, h, hvals (c, u) hu]

theorem upChar_isWhitespace (c : Char) :
    (upChar c).isWhitespace = c.isWhitespace := by
  cases h : lookupChar c lowerUpperTable with
  | none => simp [upChar, h]
  | some u =>
    have hu : (c, u) ∈ lowerUpperTable := lookupChar_mem h
    have hws : ∀ p ∈ lowerUpperTable,
        p.1.isWhitespace = false ∧ p.2.isWhitespace = false := by decide
    obtain ⟨h1, h2⟩ := hws (c, u) hu
    simp [upChar, h, h1, h2]

theorem dropWhile_idem {α : Type} (p : α → Bool) (l : List α) :
    (l.dropWhile p).dropWhile p = l.dropWhile p := by
  induction l with
  | nil => rfl
  | cons c t ih =>
    by_cases hc : p c
    · simp [List.dropWhile_cons, hc, ih]
    · simp [List.dropWhile_cons, hc]

theorem trimL_trimL (l : List Char) : trimL (trimL l) = trimL l :=
  dropWhile_idem _ l

theorem trimR_trimR (l : List Char) : trimR (trimR l) = trimR l := by
  simp [trimR, List.reverse_reverse, trimL_trimL]

theorem trimR_prefixo (l : List Char) : trimR l <+: l := by
  have h : trimL l.reverse <:+ l.reverse := List.dropWhile_suffix _
  have h2 := h.reverse
  rwa [List.reverse_reverse] at h2

theorem trimL_cons_of_not_ws {c : Char} {t : List Char}
    (h : c.isWhitespace = false) : trimL (c :: t) = c :: t := by
  simp [trimL, List.dropWhile_cons, h]

theorem trimL_of_trimR {l : List Char} (h : trimL l = l) :
    trimL (trimR l) = trimR l := by
  cases hl : trimR l with
  | nil => simp [trimL]
  | cons c t =>
    have hpre : trimR l <+: l := trimR_prefixo l
    rw [hl] at hpre
    obtain ⟨r, hr⟩ := hpre
    have hc : c.isWhitespace = false := by
      by_contra hcw
      rw [Bool.not_eq_false] at hcw
      rw [← hr] at h
      have hlen := congrArg List.length h
      have hle : ((c :: t ++ r).tail.dropWhile Char.isWhitespace).length ≤
          (c :: t ++ r).tail.length :=
        ((List.dropWhile_suffix _).sublist).length_le
      simp [trimL, List.dropWhile_cons, hcw] at hlen
      simp at hle
      omega
    exact trimL_cons_of_not_ws hc

theorem trimBoth_idem (l : List Char) : trimBoth (trimBoth l) = trimBoth l := by
  unfold trimBoth
  rw [trimL_of_trimR (trimL_trimL l), trimR_trimR]

theorem data_mk (l : List Char) : (String.mk l).data = l := rfl

theorem lookupExp_mem {t : List (Char × List Char)} {c : Char} {v : List Char}
    (h : lookupExp c t = some v) : (c, v) ∈ t := by
  induction t with
  | nil => simp [lookupExp] at h
  | cons p t ih =>
    obtain ⟨k, w⟩ := p
    rw [lookupExp] at h
    by_cases hck : c = k
    · subst hck
      rw [if_pos rfl] at h
      injection h with h
      subst h
      exact List.mem_cons_self _ _
    · rw [if_neg hck] at h
      exact List.mem_cons_of_mem _ (ih h)

theorem upStrChar_eq_single {c : Char} (h : lookupExp c upExpandTable = none) :
    upStrChar c = [upChar c] := by
  simp [upStrChar, h]

theorem upStrChar_eq_exp {c : Char} {e : List Char}
    (h : lookupExp c upExpandTable = some e) : upStrChar c = e := by
  simp [upStrChar, h]

theorem upStrChar_ne_nil (c : Char) : upStrChar c ≠ [] := by
  cases h : lookupExp c upExpandTable with
  | none =>
    rw [upStrChar_eq_single h]
    simp
  | some e =>
    rw [upStrChar_eq_exp h]
    have hvals : ∀ p ∈ upExpandTable, p.2 ≠ [] := by decide
    exact hvals (c, e) (lookupExp_mem h)

theorem upStr_append (l r : List Char) : upStr (l ++ r) = upStr l ++ upStr r := by
  induction l with
  | nil => rfl
  | cons c t ih =>
    show upStrChar c ++ upStr (t ++ r) = (upStrChar c ++ upStr t) ++ upStr r
    rw [ih, List.append_assoc]

theorem upStr_ne_nil {l : List Char} (h : l ≠ []) : upStr l ≠ [] := by
  cases l with
  | nil => exact absurd rfl h
  | cons c t =>
    show upStrChar c ++ upStr t ≠ []
    intro hx
    exact upStrChar_ne_nil c (List.append_eq_nil.mp hx).1

theorem upStr_singleton (c : Char) : upStr [c] = upStrChar c := by
  show upStrChar c ++ upStr [] = upStrChar c
  rw [show upStr ([] : List Char) = [] from rfl, List.append_nil]

theorem upStrChar_fix (c : Char) : upStr (upStrChar c) = upStrChar c := by
  cases h : lookupExp c upExpandTable with
  | some e =>
    rw [upStrChar_eq_exp h]
    have hvals : ∀ p ∈ upExpandTable, upStr p.2 = p.2 := by decide
    exact hvals (c, e) (lookupExp_mem h)
  | none =>
    rw [upStrChar_eq_single h, upStr_singleton]
    cases h2 : lookupChar c lowerUpperTable with
    | some u =>
      have hvals : ∀ p ∈ lowerUpperTable, upStrChar p.2 = [p.2] := by decide
      have hc : upChar c = u := by simp [upChar, h2]
      rw [hc]
      exact hvals (c, u) (lookupChar_mem h2)
    | none =>
      have hc : upChar c = c := by simp [upChar, h2]
      rw [hc, upStrChar_eq_single h, hc]

theorem upStr_upStr (l : List Char) : upStr (upStr l) = upStr l := by
  induction l with
  | nil => rfl
  | cons c t ih =>
    show upStr (upStrChar c ++ upStr t) = upStrChar c ++ upStr t
    rw [upStr_append, upStrChar_fix, ih]

theorem upStrChar_of_ws {c : Char} (h : c.isWhitespace = true) :
    upStrChar c = [c] := by
  have hd : ((c = ' ' ∨ c = '\t') ∨ c = '\r') ∨ c = '\n' := by
    simpa [Char.isWhitespace] using h
  rcases hd with ((h1 | h1) | h1) | h1 <;> (subst h1; decide)

theorem upStrChar_not_ws {c : Char} (h : c.isWhitespace = false) :
    ∀ d ∈ upStrChar c, d.isWhitespace = false := by
  intro d hd
  cases h2 : lookupExp c upExpandTable with
  | some e =>
    rw [upStrChar_eq_exp h2] at hd
    have hvals : ∀ p ∈ upExpandTable, ∀ d ∈ p.2, d.isWhitespace = false := by
      decide
    exact hvals (c, e) (lookupExp_mem h2) d hd
  | none =>
    rw [upStrChar_eq_single h2, List.mem_singleton] at hd
    subst hd
    rw [upChar_isWhitespace]
    exact h

theorem trimL_upStr (l : List Char) : trimL (upStr l) = upStr (trimL l) := by
  induction l with
  | nil => rfl
  | cons c t ih =>
    cases hw : c.isWhitespace with
    | true =>
      show trimL (upStrChar c ++ upStr t) = upStr (trimL (c :: t))
      rw [upStrChar_of_ws hw, List.singleton_append,
        show trimL (c :: upStr t) = trimL (upStr t) from by
          simp [trimL, List.dropWhile_cons, hw],
        ih,
        show trimL (c :: t) = trimL t from by
          simp [trimL, List.dropWhile_cons, hw]]
    | false =>
      show trimL (upStrChar c ++ upStr t) = upStr (trimL (c :: t))
      rw [trimL_cons_of_not_ws hw]
      cases he : upStrChar c with
      | nil => exact absurd he (upStrChar_ne_nil c)
      | cons d ds =>
        have hd : d.isWhitespace = false :=
          upStrChar_not_ws hw d (by rw [he]; exact List.mem_cons_self _ _)
        rw [List.cons_append, trimL_cons_of_not_ws hd]
        show d :: (ds ++ upStr t) = upStr (c :: t)
        rw [show upStr (c :: t) = upStrChar c ++ upStr t from rfl, he,
          List.cons_append]

theorem trimR_append_ws {m : List Char} {x : Char} (hx : x.isWhitespace = true) :
    trimR (m ++ [x]) = trimR m := by
  unfold trimR
  rw [List.reverse_append, List.reverse_singleton, List.singleton_append,
    show trimL (x :: m.reverse) = trimL m.reverse from by
      simp [trimL, List.dropWhile_cons, hx]]

theorem trimR_append_not_ws {m : List Char} {x : Char}
    (hx : x.isWhitespace = false) : trimR (m ++ [x]) = m ++ [x] := by
  unfold trimR
  rw [List.reverse_append, List.reverse_singleton, List.singleton_append,
    trimL_cons_of_not_ws hx, List.reverse_cons, List.reverse_reverse]

theorem trimR_upStr (l : List Char) : trimR (upStr l) = upStr (trimR l) := by
  induction l using List.reverseRecOn with
  | nil => rfl
  | append_singleton m x ih =>
    cases hw : x.isWhitespace with
    | true =>
      have hx1 : upStr [x] = [x] := by rw [upStr_singleton, upStrChar_of_ws hw]
      rw [upStr_append, hx1, trimR_append_ws hw, trimR_append_ws hw, ih]
    | false =>
      obtain ⟨e, y, hey⟩ :=
        (List.eq_nil_or_concat (upStrChar x)).resolve_left (upStrChar_ne_nil x)
      rw [List.concat_eq_append] at hey
      have hy : y.isWhitespace = false :=
        upStrChar_not_ws hw y
          (by rw [hey]
              exact List.mem_append.mpr (Or.inr (List.mem_singleton.mpr rfl)))
      have hx2 : upStr (m ++ [x]) = (upStr m ++ e) ++ [y] := by
        rw [upStr_append, upStr_singleton, hey, List.append_assoc]
      rw [hx2, trimR_append_not_ws hy, trimR_append_not_ws hw, upStr_append,
        upStr_singleton, hey, List.append_assoc]

theorem trimBoth_upStr (l : List Char) :
    trimBoth (upStr l) = upStr (trimBoth l) := by
  unfold trimBoth
  rw [trimL_upStr, trimR_upStr]

theorem upperStripStr_fix (s : String) :
    upperStripStr (upperStripStr s) = upperStripStr s := by
  show (⟨trimBoth (upStr (trimBoth (upStr s.data)))⟩ : String) =
    ⟨trimBoth (upStr s.data)⟩
  rw [← trimBoth_upStr, upStr_upStr, trimBoth_idem]

theorem upperStripStr_upperTrim (l : List Char) :
    upperStripStr ⟨upStr (trimBoth l)⟩ = ⟨upStr (trimBoth l)⟩ := by
  show (⟨trimBoth (upStr (upStr (trimBoth l)))⟩ : String) = ⟨upStr (trimBoth l)⟩
  rw [upStr_upStr, trimBoth_upStr, trimBoth_idem]

theorem UF_NOMES_val_fix : ∀ p ∈ UF_NOMES, upperStripStr p.2 = p.2 := by decide

theorem UF_NOMES_val_sigla : ∀ p ∈ UF_NOMES, uf_para_sigla p.2 = some p.2 := by
  decide

theorem ufNorm_fix (s : String) : upperStripStr (ufNorm s) = ufNorm s := by
  unfold ufNorm
  cases h : uf_para_sigla s with
  | none =>
    simp only [Option.getD_none]
    exact upperStripStr_fix s
  | some c =>
    simp only [Option.getD_some]
    unfold uf_para_sigla at h
    by_cases hb : trimBoth s.data = []
    · rw [if_pos hb] at h
      exact absurd h (by simp)
    · rw [if_neg hb] at h
      by_cases hlen : (trimBoth s.data).length ≤ 2
      · rw [if_pos hlen] at h
        injection h with h
        subst h
        exact upperStripStr_upperTrim _
      · rw [if_neg hlen] at h
        exact UF_NOMES_val_fix _ (lookupStr_mem h)

theorem uf_para_sigla_idem_short {s c : String} (h : uf_para_sigla s = some c)
    (hlen : c.length ≤ 2) : uf_para_sigla c = some c := by
  unfold uf_para_sigla at h
  by_cases hb : trimBoth s.data = []
  · rw [if_pos hb] at h
    exact absurd h (by simp)
  · rw [if_neg hb] at h
    by_cases hl : (trimBoth s.data).length ≤ 2
    · rw [if_pos hl] at h
      injection h with h
      subst h
      have hd : trimBoth (upStr (trimBoth s.data)) = upStr (trimBoth s.data) := by
        rw [trimBoth_upStr, trimBoth_idem]
      have hne : upStr (trimBoth s.data) ≠ [] := upStr_ne_nil hb
      have hlen2 : (upStr (trimBoth s.data)).length ≤ 2 := hlen
      simp only [uf_para_sigla, data_mk]
      rw [hd, if_neg hne, if_pos hlen2, upStr_upStr]
    · rw [if_neg hl] at h
      exact UF_NOMES_val_sigla _ (lookupStr_mem h)

theorem map_eq_self_of {α : Type} {l : List α} {f : α → α}
    (h : ∀ x ∈ l, f x = x) : l.map f = l := by
  induction l with
  | nil => rfl
  | cons a t ih =>
    rw [List.map_cons, h a (List.mem_cons_self a t),
      ih fun x hx => h x (List.mem_cons_of_mem a hx)]

theorem upsert_keys (k : String) (v : ℚ) (l : List (String × ℚ)) :
    (upsert k v l).map Prod.fst =
      if k ∈ l.map Prod.fst then l.map Prod.fst else l.map Prod.fst ++ [k] := by
  induction l with
  | nil => simp [upsert]
  | cons p t ih =>
    obtain ⟨k0, v0⟩ := p
    by_cases hk : k0 = k
    · subst hk
      simp [upsert]
    · have hk' : ¬k = k0 := fun he => hk he.symm
      rw [upsert, if_neg hk]
      by_cases hm : k ∈ t.map Prod.fst
      · simp only [List.map_cons, ih, if_pos hm]
        rw [if_pos (List.mem_cons_of_mem _ hm)]
      · simp only [List.map_cons, ih, if_neg hm]
        rw [if_neg]
        · rfl
        · rw [List.mem_cons]
          rintro (h1 | h2)
          · exact hk' h1
          · exact hm h2

theorem upsert_nodup (k : String) (v : ℚ) {l : List (String × ℚ)}
    (h : (l.map Prod.fst).Nodup) : ((upsert k v l).map Prod.fst).Nodup := by
  rw [upsert_keys]
  by_cases hm : k ∈ l.map Prod.fst
  · rwa [if_pos hm]
  · rw [if_neg hm, List.nodup_append]
    exact ⟨h, List.nodup_singleton k, by rwa [List.disjoint_singleton]⟩

theorem upsert_keys_mem {k : String} (v : ℚ) (l : List (String × ℚ)) {x : String}
    (hx : x ∈ (upsert k v l).map Prod.fst) : x ∈ l.map Prod.fst ∨ x = k := by
  rw [upsert_keys] at hx
  by_cases hm : k ∈ l.map Prod.fst
  · rw [if_pos hm] at hx
    exact Or.inl hx
  · rw [if_neg hm, List.mem_append, List.mem_singleton] at hx
    exact hx

theorem groupSum_aux_keys {x : String} :
    ∀ (l : List (String × Option ℚ)) (acc : List (String × ℚ)),
      x ∈ ((l.foldl (fun acc kv => upsert kv.1 (kv.2.getD 0) acc) acc).map Prod.fst) →
      x ∈ acc.map Prod.fst ∨ x ∈ l.map Prod.fst
  | [], acc, hx => Or.inl hx
  | (k, v) :: t, acc, hx => by
    rcases groupSum_aux_keys t (upsert k (v.getD 0) acc) hx with h1 | h2
    · rcases upsert_keys_mem (v.getD 0) acc h1 with ha | hb
      · exact Or.inl ha
      · exact Or.inr (by simp [hb])
    · exact Or.inr (List.mem_cons_of_mem _ h2)

theorem groupSum_keys_sub {l : List (String × Option ℚ)} {x : String}
    (hx : x ∈ (groupSum l).map Prod.fst) : x ∈ l.map Prod.fst := by
  rcases groupSum_aux_keys l [] hx with h1 | h2
  · simp at h1
  · exact h2

theorem groupSum_aux_nodup :
    ∀ (l : List (String × Option ℚ)) (acc : List (String × ℚ)),
      (acc.map Prod.fst).Nodup →
      (((l.foldl (fun acc kv => upsert kv.1 (kv.2.getD 0) acc) acc)).map Prod.fst).Nodup
  | [], _, h => h
  | (k, v) :: t, acc, h =>
    groupSum_aux_nodup t (upsert k (v.getD 0) acc) (upsert_nodup k (v.getD 0) h)

theorem groupSum_nodup (l : List (String × Option ℚ)) :
    ((groupSum l).map Prod.fst).Nodup :=
  groupSum_aux_nodup l [] List.nodup_nil

theorem upsert_filter_sum (P : String → Bool) (k : String) (v : ℚ)
    (l : List (String × ℚ)) :
    somaValores ((upsert k v l).filter fun p => P p.1) =
      somaValores (l.filter fun p => P p.1) + (if P k then v else 0) := by
  induction l with
  | nil =>
    by_cases hp : P k <;> simp [upsert, somaValores, List.filter_cons, hp]
  | cons p t ih =>
    obtain ⟨k0, v0⟩ := p
    by_cases hk : k0 = k
    · subst hk
      by_cases hp : P k0 <;>
        simp [upsert, List.filter_cons, hp, somaValores] <;> ring
    · rw [upsert, if_neg hk]
      by_cases hp : P k0
      · simp only [List.filter_cons, hp, if_true, somaValores, List.map_cons,
          List.sum_cons]
        simp only [somaValores] at ih
        rw [ih]
        ring
      · simp only [List.filter_cons, hp, Bool.false_eq_true, if_false]
        exact ih

theorem groupSum_aux_filter_sum (P : String → Bool) :
    ∀ (l : List (String × Option ℚ)) (acc : List (String × ℚ)),
      somaValores
          ((l.foldl (fun acc kv => upsert kv.1 (kv.2.getD 0) acc) acc).filter
            fun p => P p.1) =
        somaValores (acc.filter fun p => P p.1) +
          (l.map fun kv => if P kv.1 then kv.2.getD 0 else 0).sum
  | [], acc => by simp
  | (k, v) :: t, acc => by
    rw [List.foldl_cons, groupSum_aux_filter_sum P t _, upsert_filter_sum]
    simp only [List.map_cons, List.sum_cons]
    ring

theorem groupSum_filter_sum (P : String → Bool) (l : List (String × Option ℚ)) :
    somaValores ((groupSum l).filter fun p => P p.1) =
      (l.map fun kv => if P kv.1 then kv.2.getD 0 else 0).sum := by
  have h := groupSum_aux_filter_sum P l []
  simpa [groupSum, somaValores] using h

theorem grupoSemCorrecao_eq (o : Oper) (rows : List Row) :
    grupoSemCorrecao o rows =
      (groupSum (rows.map fun r => (ufNorm r.uf, rowValor o r))).filter
        (fun p => UF_SIGLAS.contains p.1) := by
  unfold grupoSemCorrecao
  congr 1
  apply map_eq_self_of
  intro p hp
  obtain ⟨a, b⟩ := p
  have hk : a ∈ (groupSum (rows.map fun r => (ufNorm r.uf, rowValor o r))).map Prod.fst :=
    List.mem_map_of_mem Prod.fst hp
  have hk2 := groupSum_keys_sub hk
  rw [List.map_map] at hk2
  obtain ⟨r, _, hr⟩ := List.mem_map.mp hk2
  have hfix : upperStripStr a = a := by
    rw [← hr]
    exact ufNorm_fix r.uf
  rw [hfix]

theorem sum_if_count (Q : Row → Bool) (rows : List Row) :
    (rows.map fun r => if Q r then (1 : ℚ) else 0).sum =
      ((rows.filter Q).length : ℚ) := by
  induction rows with
  | nil => simp
  | cons r t ih =>
    by_cases hq : Q r
    · simp only [List.map_cons, List.sum_cons, List.filter_cons, hq, if_true, ih,
        List.length_cons]
      push_cast
      ring
    · simp [List.filter_cons, hq, ih]

theorem nodup_keys_val_eq {l : List (String × ℚ)} (h : (l.map Prod.fst).Nodup)
    {k : String} {a b : ℚ} (ha : (k, a) ∈ l) (hb : (k, b) ∈ l) : a = b := by
  induction l with
  | nil => cases ha
  | cons p t ih =>
    rw [List.map_cons, List.nodup_cons] at h
    obtain ⟨hp, ht⟩ := h
    rcases List.mem_cons.mp ha with ha1 | ha2 <;>
      rcases List.mem_cons.mp hb with hb1 | hb2
    · rw [← ha1] at hb1
      injection hb1 with h1 h2
      exact h2.symm
    · exfalso
      have hkm : k ∈ List.map Prod.fst t := List.mem_map_of_mem Prod.fst hb2
      rw [← ha1] at hp
      exact hp hkm
    · exfalso
      have hkm : k ∈ List.map Prod.fst t := List.mem_map_of_mem Prod.fst ha2
      rw [← hb1] at hp
      exact hp hkm
    · exact ih ht ha2 hb2

theorem corrigeEntry_fst (rows : List Row) (p : String × ℚ) :
    (corrigeEntry rows p).1 = p.1 := by
  unfold corrigeEntry
  by_cases h1 : (p.1 = "RJ" ∨ p.1 = "SP") ∧ p.2 = 0
  · rw [if_pos h1]
    by_cases h2 : 0 < contaUf rows p.1
    · rw [if_pos h2]
    · rw [if_neg h2]
  · rw [if_neg h1]

theorem corrige_keys (rows : List Row) (grupo : List (String × ℚ)) :
    (corrige rows grupo).map Prod.fst = grupo.map Prod.fst := by
  unfold corrige
  rw [List.map_map]
  exact List.map_congr_left fun p _ => corrigeEntry_fst rows p

theorem contaUf_pos_of_key {o : Oper} {rows : List Row} {uf : String} {v : ℚ}
    (h : (uf, v) ∈ grupoSemCorrecao o rows) : 0 < contaUf rows uf := by
  rw [grupoSemCorrecao_eq] at h
  have h2 := (List.mem_filter.mp h).1
  have hk : uf ∈ (groupSum (rows.map fun r => (ufNorm r.uf, rowValor o r))).map Prod.fst :=
    List.mem_map_of_mem Prod.fst h2
  have hk2 := groupSum_keys_sub hk
  rw [List.map_map] at hk2
  obtain ⟨r, hrmem, hr⟩ := List.mem_map.mp hk2
  have hmem : r ∈ rows.filter fun r => ufNorm r.uf == uf := by
    rw [List.mem_filter]
    refine ⟨hrmem, ?_⟩
    simp only [beq_iff_eq]
    exact hr
  unfold contaUf
  exact List.length_pos.mpr (List.ne_nil_of_mem hmem)

/-- Character of a decimal digit. -/
def digitChr (d : ℕ) : Char := Char.ofNat (48 + d)

/-- Value of a list of decimal digits, most significant first. -/
def digitsVal (ds : List ℕ) : ℕ := ds.foldl (fun a d => 10 * a + d) 0

theorem isDigit_ne_signs {c : Char} (h : c.isDigit = true) :
    c ≠ '-' ∧ c ≠ '+' ∧ c ≠ '.' ∧ c.isWhitespace = false := by
  refine ⟨?_, ?_, ?_, ?_⟩
  · intro he; subst he; exact absurd h (by decide)
  · intro he; subst he; exact absurd h (by decide)
  · intro he; subst he; exact absurd h (by decide)
  · cases hw : c.isWhitespace
    · rfl
    · exfalso
      have hc : ((c = ' ' ∨ c = '\t') ∨ c = '\r') ∨ c = '\n' := by
        simpa [Char.isWhitespace] using hw
      rcases hc with ((h1 | h1) | h1) | h1 <;> (subst h1; exact absurd h (by decide))

theorem takeWhile_append_of_all {α : Type} {p : α → Bool} {l r : List α}
    (h : ∀ c ∈ l, p c = true) : (l ++ r).takeWhile p = l ++ r.takeWhile p := by
  induction l with
  | nil => simp
  | cons c t ih =>
    have hc := h c (List.mem_cons_self _ _)
    simp [List.takeWhile_cons, hc, ih fun x hx => h x (List.mem_cons_of_mem _ hx)]

theorem dropWhile_append_of_all {α : Type} {p : α → Bool} {l r : List α}
    (h : ∀ c ∈ l, p c = true) : (l ++ r).dropWhile p = r.dropWhile p := by
  induction l with
  | nil => simp
  | cons c t ih =>
    have hc := h c (List.mem_cons_self _ _)
    simp [List.dropWhile_cons, hc, ih fun x hx => h x (List.mem_cons_of_mem _ hx)]

theorem takeWhile_of_all {α : Type} {p : α → Bool} {l : List α}
    (h : ∀ c ∈ l, p c = true) : l.takeWhile p = l :=
  List.takeWhile_eq_self_iff.mpr h

theorem dropWhile_of_all {α : Type} {p : α → Bool} {l : List α}
    (h : ∀ c ∈ l, p c = true) : l.dropWhile p = [] := by
  induction l with
  | nil => rfl
  | cons c t ih =>
    simp [List.dropWhile_cons, h c (List.mem_cons_self _ _),
      ih fun x hx => h x (List.mem_cons_of_mem _ hx)]

theorem takeWhile_cons_false {α : Type} {p : α → Bool} {c : α} {t : List α}
    (hp : p c = false) : (c :: t).takeWhile p = [] := by
  simp [List.takeWhile_cons, hp]

theorem dropWhile_cons_false {α : Type} {p : α → Bool} {c : α} {t : List α}
    (hp : p c = false) : (c :: t).dropWhile p = c :: t := by
  simp [List.dropWhile_cons, hp]

theorem trimL_of_all_not_ws {l : List Char}
    (h : ∀ c ∈ l, c.isWhitespace = false) : trimL l = l := by
  cases l with
  | nil => rfl
  | cons c t => exact dropWhile_cons_false (h c (List.mem_cons_self _ _))

theorem trimR_of_all_not_ws {l : List Char}
    (h : ∀ c ∈ l, c.isWhitespace = false) : trimR l = l := by
  unfold trimR
  rw [trimL_of_all_not_ws fun c hc => h c (List.mem_reverse.mp hc),
    List.reverse_reverse]

theorem trimBoth_of_all_not_ws {l : List Char}
    (h : ∀ c ∈ l, c.isWhitespace = false) : trimBoth l = l := by
  unfold trimBoth
  rw [trimL_of_all_not_ws h, trimR_of_all_not_ws h]

theorem digitChr_isDigit {d : ℕ} (h : d < 10) : (digitChr d).isDigit = true := by
  interval_cases d <;> decide

theorem digitVal_digitChr {d : ℕ} (h : d < 10) : digitVal (digitChr d) = d := by
  interval_cases d <;> decide

theorem digitChr_ne_dot {d : ℕ} (h : d < 10) : digitChr d ≠ '.' := by
  interval_cases d <;> decide

theorem digitChr_ne_comma {d : ℕ} (h : d < 10) : digitChr d ≠ ',' := by
  interval_cases d <;> decide

theorem digitsToNat_aux (ds : List ℕ) (h : ∀ d ∈ ds, d < 10) :
    ∀ a : ℕ, (ds.map digitChr).foldl (fun x c => 10 * x + digitVal c) a =
      ds.foldl (fun x d => 10 * x + d) a := by
  induction ds with
  | nil => intro a; rfl
  | cons d t ih =>
    intro a
    simp only [List.map_cons, List.foldl_cons]
    rw [digitVal_digitChr (h d (List.mem_cons_self _ _))]
    exact ih (fun x hx => h x (List.mem_cons_of_mem _ hx)) _

theorem digitsToNat_map {ds : List ℕ} (h : ∀ d ∈ ds, d < 10) :
    digitsToNat (ds.map digitChr) = digitsVal ds :=
  digitsToNat_aux ds h 0

theorem parseSign_digit {c : Char} (t : List Char) (h : c.isDigit = true) :
    parseSign (c :: t) = (false, c :: t) := by
  obtain ⟨h1, h2, _, _⟩ := isDigit_ne_signs h
  simp [parseSign, h1, h2]

theorem parseDecimal_digits {ds : List Char} (hds : ∀ c ∈ ds, c.isDigit = true)
    (hne : ds ≠ []) : parseDecimal ⟨ds⟩ = some (digitsToNat ds : ℚ) := by
  obtain ⟨d0, ds', rfl⟩ := List.exists_cons_of_ne_nil hne
  have hall_ws : ∀ c ∈ d0 :: ds', c.isWhitespace = false :=
    fun c hc => (isDigit_ne_signs (hds c hc)).2.2.2
  simp only [parseDecimal, data_mk]
  rw [trimBoth_of_all_not_ws hall_ws,
    parseSign_digit _ (hds d0 (List.mem_cons_self _ _))]
  rw [takeWhile_of_all hds, dropWhile_of_all hds]
  simp [parseAfterIntPart]

theorem parseDecimal_digits_dot {ds fs : List Char}
    (hds : ∀ c ∈ ds, c.isDigit = true) (hfs : ∀ c ∈ fs, c.isDigit = true)
    (hne : ds ≠ []) :
    parseDecimal ⟨ds ++ '.' :: fs⟩ =
      some ((digitsToNat ds : ℚ) + (digitsToNat fs : ℚ) / 10 ^ fs.length) := by
  obtain ⟨d0, ds', rfl⟩ := List.exists_cons_of_ne_nil hne
  have hall_ws : ∀ c ∈ (d0 :: ds') ++ '.' :: fs, c.isWhitespace = false := by
    intro c hc
    rcases List.mem_append.mp hc with h1 | h1
    · exact (isDigit_ne_signs (hds c h1)).2.2.2
    · rcases List.mem_cons.mp h1 with h2 | h2
      · subst h2; decide
      · exact (isDigit_ne_signs (hfs c h2)).2.2.2
  simp only [parseDecimal, data_mk]
  rw [trimBoth_of_all_not_ws hall_ws]
  rw [show (d0 :: ds') ++ '.' :: fs = d0 :: (ds' ++ '.' :: fs) from rfl,
    parseSign_digit _ (hds d0 (List.mem_cons_self _ _))]
  rw [show d0 :: (ds' ++ '.' :: fs) = (d0 :: ds') ++ '.' :: fs from rfl]
  rw [takeWhile_append_of_all hds, dropWhile_append_of_all hds,
    takeWhile_cons_false (by decide), dropWhile_cons_false (by decide),
    List.append_nil]
  simp only [parseAfterIntPart, if_pos rfl]
  rw [takeWhile_of_all hfs, dropWhile_of_all hfs]
  have hds_ne : (d0 :: ds').isEmpty = false := rfl
  simp [hds_ne]

/-- Render digit groups separated by '.' (thousands-dot convention). -/
def renderGroups : List (List ℕ) → List Char
  | [] => []
  | [g] => g.map digitChr
  | g :: gs => g.map digitChr ++ '.' :: renderGroups gs

/-- Render a numeral in the Brazilian thousands-dot / decimal-comma
convention: dot-separated digit groups, a comma, then fractional digits. -/
def renderBR (gs : List (List ℕ)) (fs : List ℕ) : String :=
  ⟨renderGroups gs ++ ',' :: fs.map digitChr⟩

theorem filter_ne_dot_map_digitChr {g : List ℕ} (h : ∀ d ∈ g, d < 10) :
    (g.map digitChr).filter (fun c => c != '.') = g.map digitChr := by
  apply List.filter_eq_self.mpr
  intro c hc
  obtain ⟨d, hd, rfl⟩ := List.mem_map.mp hc
  simp only [bne_iff_ne, ne_eq]
  exact digitChr_ne_dot (h d hd)

theorem removeDots_renderGroups {gs : List (List ℕ)}
    (h : ∀ g ∈ gs, ∀ d ∈ g, d < 10) :
    (renderGroups gs).filter (fun c => c != '.') = gs.join.map digitChr := by
  induction gs with
  | nil => rfl
  | cons g gs ih =>
    cases gs with
    | nil =>
      rw [show renderGroups [g] = g.map digitChr from rfl,
        filter_ne_dot_map_digitChr (h g (List.mem_cons_self _ _))]
      simp
    | cons g2 gs2 =>
      rw [show renderGroups (g :: g2 :: gs2) =
          g.map digitChr ++ '.' :: renderGroups (g2 :: gs2) from rfl,
        List.filter_append,
        filter_ne_dot_map_digitChr (h g (List.mem_cons_self _ _)),
        List.filter_cons]
      have hdot : (('.' : Char) != '.') = false := by decide
      rw [hdot]
      simp only [Bool.false_eq_true, if_false]
      rw [ih fun g' hg' => h g' (List.mem_cons_of_mem _ hg')]
      rw [show (g :: g2 :: gs2).join = g ++ (g2 :: gs2).join from rfl, List.map_append]

theorem commaToDot_concat {l r : List Char} (hl : ∀ c ∈ l, c ≠ ',')
    (hr : ∀ c ∈ r, c ≠ ',') :
    (l ++ ',' :: r).map (fun c => if c = ',' then '.' else c) = l ++ '.' :: r := by
  rw [List.map_append, List.map_cons, if_pos rfl,
    map_eq_self_of (fun c hc => if_neg (hl c hc)),
    map_eq_self_of (fun c hc => if_neg (hr c hc))]

theorem le_maxQAux (q : ℚ) (l : List ℚ) : q ≤ maxQAux q l := by
  induction l generalizing q with
  | nil => exact le_refl q
  | cons x t ih => exact le_trans (le_max_left q x) (ih (max q x))

theorem maxQAux_mem (q : ℚ) (l : List ℚ) : maxQAux q l = q ∨ maxQAux q l ∈ l := by
  induction l generalizing q with
  | nil => exact Or.inl rfl
  | cons x t ih =>
    show maxQAux (max q x) t = q ∨ maxQAux (max q x) t ∈ x :: t
    rcases ih (max q x) with h | h
    · rcases max_choice q x with hm | hm
      · exact Or.inl (by rw [h, hm])
      · exact Or.inr (by rw [h, hm]; exact List.mem_cons_self _ _)
    · exact Or.inr (List.mem_cons_of_mem _ h)

theorem maxQAux_ub {x : ℚ} {l : List ℚ} (hx : x ∈ l) :
    ∀ q : ℚ, x ≤ maxQAux q l := by
  induction l with
  | nil => cases hx
  | cons y t ih =>
    intro q
    show x ≤ maxQAux (max q y) t
    rcases List.mem_cons.mp hx with h | h
    · subst h
      exact le_trans (le_max_right q x) (le_maxQAux _ t)
    · exact ih h _

theorem maxQ_spec {l : List ℚ} {m : ℚ} (h : maxQ l = some m) :
    m ∈ l ∧ ∀ x ∈ l, x ≤ m := by
  cases l with
  | nil => cases h
  | cons q t =>
    rw [maxQ] at h
    injection h with h
    subst h
    constructor
    · rcases maxQAux_mem q t with h1 | h1
      · rw [h1]; exact List.mem_cons_self _ _
      · exact List.mem_cons_of_mem _ h1
    · intro x hx
      rcases List.mem_cons.mp hx with h1 | h1
      · subst h1; exact le_maxQAux x t
      · exact maxQAux_ub h1 q

theorem ratTrunc_intCast (n : ℤ) : ratTrunc (n : ℚ) = n := by
  unfold ratTrunc
  by_cases hn : (n : ℚ) < 0
  · rw [if_pos hn, ← Int.cast_neg, Int.floor_intCast, neg_neg]
  · rw [if_neg hn, Int.floor_intCast]

theorem ratTrunc_natCast (n : ℕ) : ratTrunc (n : ℚ) = n := by
  have h := ratTrunc_intCast (n : ℤ)
  rw [Int.cast_natCast] at h
  exact h

theorem contains_iff {l : List String} {x : String} :
    l.contains x = true ↔ x ∈ l :=
  List.elem_iff

theorem mem_agrega_canonical {o : Oper} {rows : List Row} {p : String × ℚ}
    (hp : p ∈ agrega o rows) : UF_SIGLAS.contains p.1 = true := by
  cases o with
  | contagem =>
    rw [show agrega Oper.contagem rows = grupoSemCorrecao Oper.contagem rows from rfl,
      grupoSemCorrecao_eq] at hp
    exact (List.mem_filter.mp hp).2
  | soma =>
    rw [show agrega Oper.soma rows =
        corrige rows (grupoSemCorrecao Oper.soma rows) from rfl] at hp
    obtain ⟨q, hq, hqe⟩ := List.mem_map.mp hp
    rw [grupoSemCorrecao_eq] at hq
    have hk : p.1 = q.1 := by rw [← hqe, corrigeEntry_fst]
    rw [hk]
    exact (List.mem_filter.mp hq).2

theorem grupoSemCorrecao_keys_nodup (o : Oper) (rows : List Row) :
    ((grupoSemCorrecao o rows).map Prod.fst).Nodup := by
  rw [grupoSemCorrecao_eq]
  exact List.Nodup.sublist ((List.filter_sublist _).map Prod.fst) (groupSum_nodup _)

theorem agrega_keys_nodup (o : Oper) (rows : List Row) :
    ((agrega o rows).map Prod.fst).Nodup := by
  cases o with
  | contagem => exact grupoSemCorrecao_keys_nodup Oper.contagem rows
  | soma =>
    rw [show agrega Oper.soma rows =
        corrige rows (grupoSemCorrecao Oper.soma rows) from rfl, corrige_keys]
    exact grupoSemCorrecao_keys_nodup Oper.soma rows

/-- C1: on the three-row table with region cells "São Paulo", "SP",
"Rio de Janeiro" and metric cells "1.000,00", "0", "", aggregating with
mode Soma and no year filter yields exactly the summary rows SP = 1000.0
and RJ = 1.0 (RJ's zero sum is replaced by its row count 1 by the
anomaly correction).  Output order is the groupby's first-occurrence
order; the spec leaves ordering unspecified. -/
theorem claim1_end_to_end :
    agrega Oper.soma
        (filtraAno AnoFiltro.todos
          [⟨"", "São Paulo", "1.000,00"⟩, ⟨"", "SP", "0"⟩,
            ⟨"", "Rio de Janeiro", ""⟩]) =
      [("SP", (1000 : ℚ)), ("RJ", (1 : ℚ))] := by
  with_unfolding_all decide

/-- C2 (amended): with mode Contagem the summary values sum to the number
of year-filtered rows whose normalized region lies in the canonical
27-code set; this equals the full row count N exactly when every row's
region normalizes into the canonical set.  (The original claim — the sum
always equals N — fails because rows with non-canonical regions are
dropped from the aggregate.) -/
theorem claim2_count_sum (rows : List Row) (esc : AnoFiltro) :
    somaValores (agrega Oper.contagem (filtraAno esc rows)) =
        (((filtraAno esc rows).filter
          fun r => UF_SIGLAS.contains (ufNorm r.uf)).length : ℚ) ∧
      ((∀ r ∈ filtraAno esc rows, UF_SIGLAS.contains (ufNorm r.uf) = true) →
        somaValores (agrega Oper.contagem (filtraAno esc rows)) =
          ((filtraAno esc rows).length : ℚ)) := by
  have hmain : ∀ rs : List Row,
      somaValores (agrega Oper.contagem rs) =
        ((rs.filter fun r => UF_SIGLAS.contains (ufNorm r.uf)).length : ℚ) := by
    intro rs
    rw [show agrega Oper.contagem rs = grupoSemCorrecao Oper.contagem rs from rfl,
      grupoSemCorrecao_eq, groupSum_filter_sum, List.map_map]
    have hcongr :
        ((fun kv : String × Option ℚ =>
            if UF_SIGLAS.contains kv.1 then kv.2.getD 0 else 0) ∘
          fun r : Row => (ufNorm r.uf, rowValor Oper.contagem r)) =
        fun r : Row => if UF_SIGLAS.contains (ufNorm r.uf) then (1 : ℚ) else 0 := by
      funext r
      simp [rowValor]
    rw [hcongr, sum_if_count]
  refine ⟨hmain _, fun hall => ?_⟩
  rw [hmain _]
  congr 1
  rw [List.filter_eq_self.mpr hall]

/-- Witness for C2 at a concrete one-row table whose region normalizes
canonically: the count aggregate sums to the table's row count. -/
theorem claim2_count_sum_witness :
    somaValores (agrega Oper.contagem
        (filtraAno AnoFiltro.todos [⟨"", "SP", "x"⟩])) =
      (((filtraAno AnoFiltro.todos [⟨"", "SP", "x"⟩]).length : ℕ) : ℚ) :=
  (claim2_count_sum [⟨"", "SP", "x"⟩] AnoFiltro.todos).2 (by decide)

/-- Counterexample to C2 as stated: a single row whose region cell "ZZ"
is not a canonical code is dropped, so the count aggregate sums to 0,
not to the row count 1. -/
theorem claim2_count_sum_counterexample :
    agrega Oper.contagem (filtraAno AnoFiltro.todos [⟨"", "ZZ", "x"⟩]) = [] ∧
    somaValores (agrega Oper.contagem (filtraAno AnoFiltro.todos [⟨"", "ZZ", "x"⟩])) = 0 ∧
    ([⟨"", "ZZ", "x"⟩] : List Row).length = 1 ∧ (0 : ℚ) ≠ (1 : ℚ) := by
  refine ⟨by with_unfolding_all decide, ?_, rfl, by norm_num⟩
  rw [show agrega Oper.contagem (filtraAno AnoFiltro.todos [⟨"", "ZZ", "x"⟩]) = []
    from by with_unfolding_all decide]
  rfl

/-- C3: in mode Soma the anomaly correction leaves every non-RJ/SP entry
unchanged, leaves every entry with a nonzero (in particular strictly
positive) sum unchanged, and for an RJ/SP entry whose sum is zero the
region necessarily has at least one row in the filtered table and the
value is replaced by that row count. -/
theorem claim3_correcao (rows : List Row) (uf : String) (v : ℚ)
    (h : (uf, v) ∈ grupoSemCorrecao Oper.soma rows) :
    (¬(uf = "RJ" ∨ uf = "SP") → (uf, v) ∈ agrega Oper.soma rows) ∧
    (v ≠ 0 → (uf, v) ∈ agrega Oper.soma rows) ∧
    ((uf = "RJ" ∨ uf = "SP") → v = 0 →
      0 < contaUf rows uf ∧
        (uf, (contaUf rows uf : ℚ)) ∈ agrega Oper.soma rows) := by
  have hag : agrega Oper.soma rows =
      corrige rows (grupoSemCorrecao Oper.soma rows) := rfl
  refine ⟨?_, ?_, ?_⟩
  · intro hne
    have heq : corrigeEntry rows (uf, v) = (uf, v) := by
      unfold corrigeEntry
      exact if_neg fun hc => hne hc.1
    have hm := List.mem_map_of_mem (corrigeEntry rows) h
    rw [heq] at hm
    rw [hag]
    exact hm
  · intro hv
    have heq : corrigeEntry rows (uf, v) = (uf, v) := by
      unfold corrigeEntry
      exact if_neg fun hc => hv hc.2
    have hm := List.mem_map_of_mem (corrigeEntry rows) h
    rw [heq] at hm
    rw [hag]
    exact hm
  · intro htgt hv0
    have hpos := contaUf_pos_of_key h
    refine ⟨hpos, ?_⟩
    have heq : corrigeEntry rows (uf, v) = (uf, (contaUf rows uf : ℚ)) := by
      unfold corrigeEntry
      rw [if_pos ⟨htgt, hv0⟩, if_pos hpos]
    have hm := List.mem_map_of_mem (corrigeEntry rows) h
    rw [heq] at hm
    rw [hag]
    exact hm

/-- Witness for C3: on a table with one null-metric RJ row and one PB row
of value 2, the positive PB sum is preserved and RJ's zero sum becomes
its positive row count. -/
theorem claim3_correcao_witness :
    ("PB", (2 : ℚ)) ∈ agrega Oper.soma [⟨"", "RJ", ""⟩, ⟨"", "PB", "2"⟩] ∧
    0 < contaUf [⟨"", "RJ", ""⟩, ⟨"", "PB", "2"⟩] "RJ" ∧
    ("RJ", (contaUf [⟨"", "RJ", ""⟩, ⟨"", "PB", "2"⟩] "RJ" : ℚ)) ∈
      agrega Oper.soma [⟨"", "RJ", ""⟩, ⟨"", "PB", "2"⟩] :=
  ⟨(claim3_correcao _ "PB" 2 (by with_unfolding_all decide)).2.1 (by norm_num),
   ((claim3_correcao _ "RJ" 0 (by with_unfolding_all decide)).2.2
      (Or.inl rfl) rfl).1,
   ((claim3_correcao _ "RJ" 0 (by with_unfolding_all decide)).2.2
      (Or.inl rfl) rfl).2⟩

/-- Counterexample to C4 as stated: the code exposes no control that
disables the known-anomaly correction.  On the one-row table whose RJ
metric is null the raw (uncorrected) aggregate is RJ = 0, but the
aggregation's output is RJ = 1 and the raw pair never appears in it —
there is no way for a caller to obtain the raw sum. -/
theorem claim4_toggle_counterexample :
    grupoSemCorrecao Oper.soma [⟨"", "RJ", ""⟩] = [("RJ", (0 : ℚ))] ∧
    agrega Oper.soma [⟨"", "RJ", ""⟩] = [("RJ", (1 : ℚ))] ∧
    ("RJ", (0 : ℚ)) ∉ agrega Oper.soma [⟨"", "RJ", ""⟩] := by
  refine ⟨by with_unfolding_all decide, by with_unfolding_all decide, ?_⟩
  rw [show agrega Oper.soma [⟨"", "RJ", ""⟩] = [("RJ", (1 : ℚ))]
    from by with_unfolding_all decide]
  intro hmem
  rw [List.mem_singleton] at hmem
  have := congrArg Prod.snd hmem
  norm_num at this

/-- C4 (amended): the correction is not toggleable.  In mode Soma the
pipeline always equals the correction pass applied to the raw grouped
table, and whenever a target region's raw sum is zero its published
value is that region's (positive) row count while the raw zero-valued
pair is never part of the output. -/
theorem claim4_no_toggle (rows : List Row) (uf : String)
    (htgt : uf = "RJ" ∨ uf = "SP")
    (h : (uf, (0 : ℚ)) ∈ grupoSemCorrecao Oper.soma rows) :
    agrega Oper.soma rows = corrige rows (grupoSemCorrecao Oper.soma rows) ∧
    0 < contaUf rows uf ∧
    (uf, (contaUf rows uf : ℚ)) ∈ agrega Oper.soma rows ∧
    (uf, (0 : ℚ)) ∉ agrega Oper.soma rows := by
  have hpos := contaUf_pos_of_key h
  have heq : corrigeEntry rows (uf, (0 : ℚ)) = (uf, (contaUf rows uf : ℚ)) := by
    unfold corrigeEntry
    rw [if_pos ⟨htgt, rfl⟩, if_pos hpos]
  have hm := List.mem_map_of_mem (corrigeEntry rows) h
  rw [heq] at hm
  have hmem : (uf, (contaUf rows uf : ℚ)) ∈ agrega Oper.soma rows := hm
  refine ⟨rfl, hpos, hmem, ?_⟩
  intro hzero
  have hval : (contaUf rows uf : ℚ) = 0 :=
    nodup_keys_val_eq (agrega_keys_nodup Oper.soma rows) hmem hzero
  rw [Nat.cast_eq_zero] at hval
  omega

/-- Witness for C4 on the one-row null-metric RJ table: the output holds
RJ's row count and never the raw zero. -/
theorem claim4_no_toggle_witness :
    ("RJ", (contaUf [⟨"", "RJ", ""⟩] "RJ" : ℚ)) ∈
        agrega Oper.soma [⟨"", "RJ", ""⟩] ∧
      ("RJ", (0 : ℚ)) ∉ agrega Oper.soma [⟨"", "RJ", ""⟩] :=
  ⟨(claim4_no_toggle [⟨"", "RJ", ""⟩] "RJ" (Or.inl rfl)
      (by with_unfolding_all decide)).2.2.1,
   (claim4_no_toggle [⟨"", "RJ", ""⟩] "RJ" (Or.inl rfl)
      (by with_unfolding_all decide)).2.2.2⟩

/-- C5: for every input table and aggregation request (year selection and
mode), every summary row's region code belongs to the canonical 27-code
key set of `UF_CENTER`, and the region codes of the output are pairwise
distinct (at most one summary row per code). -/
theorem claim5_invariante (rows : List Row) (esc : AnoFiltro) (o : Oper) :
    (∀ p ∈ agrega o (filtraAno esc rows), p.1 ∈ UF_SIGLAS) ∧
    ((agrega o (filtraAno esc rows)).map Prod.fst).Nodup := by
  refine ⟨fun p hp => contains_iff.mp (mem_agrega_canonical hp), ?_⟩
  exact agrega_keys_nodup o (filtraAno esc rows)

/-- Witness for C5: on the end-to-end table of C1's scenario shape the
output key "SP" is canonical. -/
theorem claim5_invariante_witness : ("SP" : String) ∈ UF_SIGLAS :=
  (claim5_invariante [⟨"", "São Paulo", "1.000,00"⟩] AnoFiltro.todos
    Oper.soma).1 ("SP", (1000 : ℚ)) (by with_unfolding_all decide)

/-- Counterexample to C6 as stated: on year cells "2.5" and "2" the
maximum parseable year value is 5/2, yet the "most recent" filter keeps
the "2" row and drops the "2.5" row, because the code truncates the
maximum with `int(...)` before the string comparison — the kept rows do
not match the maximum coerced to a string. -/
theorem claim6_ano_counterexample :
    maxQ (anosNum [⟨"2.5", "a", ""⟩, ⟨"2", "b", ""⟩]) = some ((5 : ℚ)/2) ∧
    parseDecimal "2.5" = some ((5 : ℚ)/2) ∧
    filtraAno AnoFiltro.maisRecente [⟨"2.5", "a", ""⟩, ⟨"2", "b", ""⟩] =
      [⟨"2", "b", ""⟩] ∧
    (⟨"2.5", "a", ""⟩ : Row) ∉
      filtraAno AnoFiltro.maisRecente [⟨"2.5", "a", ""⟩, ⟨"2", "b", ""⟩] := by
  refine ⟨?_, ?_, ?_, ?_⟩ <;> with_unfolding_all decide

/-- C6 (amended): under "(Todos)" no row is filtered; a literal year
filters by exact string equality with its decimal rendering; under
"(Mais recente)" the filter value is the `int`-truncation of the maximum
over the numerically parseable year cells (rows with unparseable years
are excluded from that maximum, which is attained and an upper bound),
and rows are kept by exact string equality with that integer's decimal
rendering; on years [2019, 2021, 2020, "n/a"] the computed value is
2021. -/
theorem claim6_filtro_ano (rows : List Row) :
    filtraAno AnoFiltro.todos rows = rows ∧
    (∀ y : ℤ, filtraAno (AnoFiltro.literal y) rows =
      rows.filter fun r => r.ano == intStr y) ∧
    (∀ a : ℤ, anoRecente rows = some a →
      filtraAno AnoFiltro.maisRecente rows =
          (rows.filter fun r => r.ano == intStr a) ∧
        ∃ q : ℚ, q ∈ anosNum rows ∧ a = ratTrunc q ∧ ∀ x ∈ anosNum rows, x ≤ q) ∧
    (∀ q : ℚ, q ∈ anosNum rows ↔ ∃ r ∈ rows, parseDecimal r.ano = some q) ∧
    anoRecente [⟨"2019", "", ""⟩, ⟨"2021", "", ""⟩, ⟨"2020", "", ""⟩,
        ⟨"n/a", "", ""⟩] =
      some 2021 := by
  refine ⟨rfl, fun y => rfl, ?_, ?_, by with_unfolding_all decide⟩
  · intro a ha
    have ha' := ha
    unfold anoRecente at ha'
    cases hm : maxQ (anosNum rows) with
    | none => rw [hm] at ha'; cases ha'
    | some q =>
      rw [hm] at ha'
      have haq : ratTrunc q = a := by
        injection ha' with ha''
      constructor
      · show (match anoRecente rows with
          | none => rows
          | some a => rows.filter fun r => r.ano == intStr a) = _
        rw [ha]
      · obtain ⟨hmem, hub⟩ := maxQ_spec hm
        exact ⟨q, hmem, haq.symm, hub⟩
  · intro q
    unfold anosNum
    exact List.mem_filterMap

/-- Witness for C6: the "most recent" filter on the four-row year table
keeps exactly the rows whose year cell is the string "2021". -/
theorem claim6_filtro_ano_witness :
    filtraAno AnoFiltro.maisRecente
        [⟨"2019", "", ""⟩, ⟨"2021", "", ""⟩, ⟨"2020", "", ""⟩, ⟨"n/a", "", ""⟩] =
      ([⟨"2019", "", ""⟩, ⟨"2021", "", ""⟩, ⟨"2020", "", ""⟩,
          ⟨"n/a", "", ""⟩].filter fun r => r.ano == intStr 2021) :=
  ((claim6_filtro_ano _).2.2.1 2021 (by with_unfolding_all decide)).1

/-- One string is a letter-case variant of another when they match
character by character, each variant character being either the original
character or its lowercase form (Python produces such variants since
`str.upper`/`str.lower` act per character on this alphabet). -/
def caseVariant : List Char → List Char → Bool
  | [], [] => true
  | a :: k, b :: v => (b = a || b = downChar a) && caseVariant k v
  | _, _ => false

theorem downChar_isWhitespace (c : Char) :
    (downChar c).isWhitespace = c.isWhitespace := by
  cases h : lookupChar c upperLowerTable with
  | none => simp [downChar, h]
  | some u =>
    have hu : (c, u) ∈ upperLowerTable := lookupChar_mem h
    have hws : ∀ p ∈ upperLowerTable,
        p.1.isWhitespace = false ∧ p.2.isWhitespace = false := by decide
    obtain ⟨h1, h2⟩ := hws (c, u) hu
    simp [downChar, h, h1, h2]

theorem rel_ws {a b : Char} (h : (b = a || b = downChar a) = true) :
    b.isWhitespace = a.isWhitespace := by
  rcases (by simpa using h : b = a ∨ b = downChar a) with h1 | h1
  · rw [h1]
  · rw [h1]
    exact downChar_isWhitespace a

theorem caseVariant_length : ∀ {k v : List Char},
    caseVariant k v = true → v.length = k.length
  | [], [], _ => rfl
  | a :: k, b :: v, h => by
    simp only [caseVariant, Bool.and_eq_true] at h
    simp [caseVariant_length h.2]
  | [], _ :: _, h => by simp [caseVariant] at h
  | _ :: _, [], h => by simp [caseVariant] at h

theorem caseVariant_trimL : ∀ {k v : List Char},
    caseVariant k v = true → caseVariant (trimL k) (trimL v) = true
  | [], [], _ => rfl
  | a :: k, b :: v, h => by
    simp only [caseVariant, Bool.and_eq_true] at h
    obtain ⟨hab, ht⟩ := h
    have hws := rel_ws hab
    cases hwa : a.isWhitespace with
    | true =>
      rw [show trimL (a :: k) = trimL k from by
          simp [trimL, List.dropWhile_cons, hwa],
        show trimL (b :: v) = trimL v from by
          simp [trimL, List.dropWhile_cons, hws, hwa]]
      exact caseVariant_trimL ht
    | false =>
      rw [trimL_cons_of_not_ws hwa, trimL_cons_of_not_ws (by rw [hws, hwa])]
      simp only [caseVariant, Bool.and_eq_true]
      exact ⟨hab, ht⟩
  | [], _ :: _, h => by simp [caseVariant] at h
  | _ :: _, [], h => by simp [caseVariant] at h

theorem caseVariant_append_single : ∀ {k v : List Char},
    caseVariant k v = true → ∀ {a b : Char}, (b = a || b = downChar a) = true →
    caseVariant (k ++ [a]) (v ++ [b]) = true
  | [], [], _, a, b, hab => by simp [caseVariant, hab]
  | a' :: k, b' :: v, h, a, b, hab => by
    simp only [caseVariant, Bool.and_eq_true] at h
    simp only [List.cons_append, caseVariant, Bool.and_eq_true]
    exact ⟨h.1, caseVariant_append_single h.2 hab⟩
  | [], _ :: _, h, _, _, _ => by simp [caseVariant] at h
  | _ :: _, [], h, _, _, _ => by simp [caseVariant] at h

theorem caseVariant_reverse : ∀ {k v : List Char},
    caseVariant k v = true → caseVariant k.reverse v.reverse = true
  | [], [], _ => rfl
  | a :: k, b :: v, h => by
    simp only [caseVariant, Bool.and_eq_true] at h
    rw [List.reverse_cons, List.reverse_cons]
    exact caseVariant_append_single (caseVariant_reverse h.2) h.1
  | [], _ :: _, h => by simp [caseVariant] at h
  | _ :: _, [], h => by simp [caseVariant] at h

theorem caseVariant_trimBoth {k v : List Char} (h : caseVariant k v = true) :
    caseVariant (trimBoth k) (trimBoth v) = true := by
  unfold trimBoth trimR
  exact caseVariant_reverse (caseVariant_trimL
    (caseVariant_reverse (caseVariant_trimL h)))

theorem trimBoth_sublist (l : List Char) : (trimBoth l).Sublist l := by
  have h1 : (trimR (trimL l)).Sublist (trimL l) := (trimR_prefixo _).sublist
  have h2 : (trimL l).Sublist l := (List.dropWhile_suffix _).sublist
  exact h1.trans h2

theorem trimBoth_eq_self_of_length {l : List Char}
    (h : (trimBoth l).length = l.length) : trimBoth l = l :=
  (trimBoth_sublist l).eq_of_length h

theorem caseVariant_filterMap (F : Char → Option Char) : ∀ {k v : List Char},
    caseVariant k v = true → (∀ a ∈ k, F (downChar a) = F a) →
    v.filterMap F = k.filterMap F
  | [], [], _, _ => rfl
  | a :: k, b :: v, h, hP => by
    simp only [caseVariant, Bool.and_eq_true] at h
    obtain ⟨hab, ht⟩ := h
    have hFb : F b = F a := by
      rcases (by simpa using hab : b = a ∨ b = downChar a) with h1 | h1
      · rw [h1]
      · rw [h1]
        exact hP a (List.mem_cons_self _ _)
    have ih := caseVariant_filterMap F ht fun x hx => hP x (List.mem_cons_of_mem _ hx)
    cases hFa : F a with
    | none => simp [List.filterMap_cons, hFb, hFa, ih]
    | some u => simp [List.filterMap_cons, hFb, hFa, ih]
  | [], _ :: _, h, _ => by simp [caseVariant] at h
  | _ :: _, [], h, _ => by simp [caseVariant] at h

theorem UF_NOMES_key_facts : ∀ p ∈ UF_NOMES,
    trimBoth p.1.data = p.1.data ∧
    ¬(p.1.data.length ≤ 2) ∧
    lookupStr (strip_accents_upper p.1) UF_NOMES = some p.2 ∧
    (∀ a ∈ p.1.data,
      (deaccentChar (downChar a)).map upChar = (deaccentChar a).map upChar) := by
  decide

theorem uf_para_sigla_caseVariant {key code variant : String}
    (hk : (key, code) ∈ UF_NOMES)
    (hv : caseVariant key.data variant.data = true) :
    uf_para_sigla variant = some code := by
  obtain ⟨htrim, hlen, hlook, hP⟩ := UF_NOMES_key_facts (key, code) hk
  have hcv_trim : caseVariant (trimBoth key.data) (trimBoth variant.data) = true :=
    caseVariant_trimBoth hv
  rw [htrim] at hcv_trim
  have hlen_var : variant.data.length = key.data.length := caseVariant_length hv
  have hlen_trim : (trimBoth variant.data).length = key.data.length :=
    caseVariant_length hcv_trim
  have htrim_var : trimBoth variant.data = variant.data :=
    trimBoth_eq_self_of_length (by rw [hlen_trim, hlen_var])
  have hvne : variant.data ≠ [] := by
    intro hx
    have h0 : key.data.length = 0 := by
      have hv0 := hlen_var
      rw [hx] at hv0
      simpa using hv0.symm
    have hlen2 : ¬key.data.length ≤ 2 := hlen
    rw [h0] at hlen2
    omega
  unfold uf_para_sigla
  rw [htrim_var]
  rw [if_neg hvne]
  rw [if_neg (by rw [hlen_var]; exact hlen)]
  have hsau : strip_accents_upper ⟨variant.data⟩ = strip_accents_upper key := by
    unfold strip_accents_upper
    rw [data_mk, List.map_filterMap, List.map_filterMap,
      caseVariant_filterMap _ hv hP]
  rw [hsau]
  exact hlook

/-- Counterexample to C7 as stated: Python `str.upper` is a one-to-many
mapping ('ß'.upper() = "SS"), so the two-character region cell "ßa" is
normalized to the three-letter "SSA", and re-normalizing "SSA" takes the
name-lookup branch and returns null — `uf_para_sigla` is not idempotent
on every input on which it returns a code. -/
theorem claim7_normalizer_counterexample :
    uf_para_sigla "ßa" = some "SSA" ∧ uf_para_sigla "SSA" = none ∧
    ¬(∀ s c : String, uf_para_sigla s = some c → uf_para_sigla c = some c) := by
  refine ⟨by decide, by decide, ?_⟩
  intro h
  have h2 := h "ßa" "SSA" (by decide)
  rw [show uf_para_sigla "SSA" = (none : Option String) from by decide] at h2
  cases h2

/-- C7 (amended): every raw region name in the canonical table `UF_NOMES`
— in any letter case, i.e. any variant obtained by lowercasing any subset
of its characters (which includes the as-written, fully lowercased and
mixed-case spellings), with or without diacritics (both spellings are
table keys) — normalizes to its canonical two-letter code, and the
canonical codes themselves are fixed points.  Idempotence holds whenever
the returned code has at most two characters, which covers the
table-lookup branch and every short input whose uppercase form does not
expand; unrestricted idempotence is refuted by the 'ß' → "SS" expansion
(see the counterexample). -/
theorem claim7_normalizer :
    (∀ p ∈ UF_NOMES, uf_para_sigla p.1 = some p.2 ∧
      uf_para_sigla p.2 = some p.2) ∧
    (∀ key code variant : String, (key, code) ∈ UF_NOMES →
      caseVariant key.data variant.data = true →
      uf_para_sigla variant = some code) ∧
    (∀ s c : String, uf_para_sigla s = some c → c.length ≤ 2 →
      uf_para_sigla c = some c) := by
  exact ⟨by decide, fun key code variant hk hv => uf_para_sigla_caseVariant hk hv,
    fun s c h hl => uf_para_sigla_idem_short h hl⟩

/-- Witness for C7: the mixed-case "São Paulo" is a letter-case variant of
the table key "SÃO PAULO" and normalizes to "SP", and the idempotence
instance at that input re-normalizes the two-letter "SP" to itself. -/
theorem claim7_normalizer_witness :
    uf_para_sigla "São Paulo" = some "SP" ∧ uf_para_sigla "SP" = some "SP" :=
  ⟨claim7_normalizer.2.1 "SÃO PAULO" "SP" "São Paulo" (by decide) (by decide),
   claim7_normalizer.2.2 "São Paulo" "SP" (by decide) (by decide)⟩

/-- C8: for every numeral in the thousands-dot / decimal-comma convention
(nonempty dot-separated digit groups, a comma, nonempty fractional
digits) the parser returns the exact value — the concatenated groups
plus the fraction — and the empty string and a garbage string parse to
null; the parser is a total function, so no exception ever reaches the
caller. -/
theorem claim8_parse_numeric :
    (∀ (gs : List (List ℕ)) (fs : List ℕ),
        gs ≠ [] → (∀ g ∈ gs, g ≠ []) → (∀ g ∈ gs, ∀ d ∈ g, d < 10) →
        fs ≠ [] → (∀ d ∈ fs, d < 10) →
        to_numeric_safe (renderBR gs fs) =
          some ((digitsVal gs.join : ℚ) + (digitsVal fs : ℚ) / 10 ^ fs.length)) ∧
    to_numeric_safe "" = none ∧
    to_numeric_safe "abc" = none := by
  refine ⟨?_, by decide, by decide⟩
  intro gs fs hgs hne hdig hfs hfd
  have hjoin_lt : ∀ d ∈ gs.join, d < 10 := by
    intro d hd
    obtain ⟨g, hg, hdg⟩ := List.mem_join.mp hd
    exact hdig g hg d hdg
  unfold to_numeric_safe renderBR removeDots commaToDot
  simp only [data_mk]
  have h1 : (renderGroups gs ++ ',' :: fs.map digitChr).filter
      (fun c => c != '.') = gs.join.map digitChr ++ ',' :: fs.map digitChr := by
    rw [List.filter_append, removeDots_renderGroups hdig, List.filter_cons]
    have hc : ((',' : Char) != '.') = true := by decide
    rw [hc]
    simp only [if_true]
    rw [filter_ne_dot_map_digitChr hfd]
  rw [h1]
  have h2 : (gs.join.map digitChr ++ ',' :: fs.map digitChr).map
      (fun c => if c = ',' then '.' else c) =
      gs.join.map digitChr ++ '.' :: fs.map digitChr := by
    apply commaToDot_concat
    · intro c hc
      obtain ⟨d, hd, rfl⟩ := List.mem_map.mp hc
      exact digitChr_ne_comma (hjoin_lt d hd)
    · intro c hc
      obtain ⟨d, hd, rfl⟩ := List.mem_map.mp hc
      exact digitChr_ne_comma (hfd d hd)
  rw [h2]
  have hds_ne : gs.join.map digitChr ≠ [] := by
    cases gs with
    | nil => exact absurd rfl hgs
    | cons g gs' =>
      rw [show (g :: gs').join = g ++ gs'.join from rfl]
      intro hx
      rw [List.map_eq_nil_iff] at hx
      exact hne g (List.mem_cons_self _ _) (List.append_eq_nil.mp hx).1
  rw [parseDecimal_digits_dot
    (fun c hc => by
      obtain ⟨d, hd, rfl⟩ := List.mem_map.mp hc
      exact digitChr_isDigit (hjoin_lt d hd))
    (fun c hc => by
      obtain ⟨d, hd, rfl⟩ := List.mem_map.mp hc
      exact digitChr_isDigit (hfd d hd))
    hds_ne]
  rw [digitsToNat_map hjoin_lt, digitsToNat_map hfd, List.length_map]

/-- Witness for C8: the spec's example "1.234,5" — rendered from groups
[1] and [2,3,4] with fraction [5] — parses to 1234 + 5/10, i.e. 1234.5. -/
theorem claim8_parse_numeric_witness :
    to_numeric_safe (renderBR [[1], [2, 3, 4]] [5]) =
      some ((digitsVal [[1], [2, 3, 4]].join : ℚ) +
        (digitsVal [5] : ℚ) / 10 ^ ([5] : List ℕ).length) ∧
    renderBR [[1], [2, 3, 4]] [5] = "1.234,5" ∧
    (digitsVal [[1], [2, 3, 4]].join : ℚ) +
        (digitsVal [5] : ℚ) / 10 ^ ([5] : List ℕ).length =
      ((1234 : ℕ) : ℚ) + ((5 : ℕ) : ℚ) / 10 :=
  ⟨claim8_parse_numeric.1 [[1], [2, 3, 4]] [5] (by decide) (by decide) (by decide)
      (by decide) (by decide),
   by decide, by norm_num [digitsVal]⟩

/-- Split a byte list on a delimiter byte (used only to build a concrete
reader for the C9 witness). -/
def splitByte (d : ℕ) : List ℕ → List (List ℕ)
  | [] => [[]]
  | b :: t =>
    if b = d then [] :: splitByte d t
    else
      match splitByte d t with
      | [] => [[b]]
      | w :: ws => (b :: w) :: ws

/-- Decode a list of code points into a string (C9 witness reader). -/
def decodeAscii (bs : List ℕ) : String := ⟨bs.map Char.ofNat⟩

/-- A concrete reader modelling `pd.read_csv` on a strictly
semicolon-delimited payload: sniffing fails, the forced-';' strategy
splits lines on ';', and the forced-',' strategy yields one-column rows. -/
def demoSemiReader : SepModo → List ℕ → Except String Tabela
  | SepModo.sniff, _ => Except.error "Could not determine delimiter"
  | SepModo.semi, bs =>
    Except.ok ((splitByte 10 bs).map fun line => (splitByte 59 line).map decodeAscii)
  | SepModo.comma, bs =>
    Except.ok ((splitByte 10 bs).map fun line => [decodeAscii line])

/-- C9: the ingestor tries auto-sniff, forced ';', then forced ','; the
first two attempts are accepted exactly when they yield a non-empty
table, the buffer is rewound so the later attempts read the full
payload, hence a semicolon payload whose sniff attempt fails (or comes
back empty) is ingested via the forced-';' attempt; and the load
surfaces an error only when the sniff and ';' attempts both failed and
the unconditional ',' attempt itself raised. -/
theorem claim9_fallback (reader : SepModo → List ℕ → Except String Tabela)
    (payload : List ℕ) (uploaded : Bool) :
    (∀ t : Tabela,
        tryNonEmpty (reader SepModo.sniff (viewBuf payload uploaded 0)) = none →
        reader SepModo.semi payload = Except.ok t → t ≠ [] →
        read_csv_robusto reader payload uploaded = Except.ok t) ∧
    (∀ e : String, read_csv_robusto reader payload uploaded = Except.error e →
      tryNonEmpty (reader SepModo.sniff (viewBuf payload uploaded 0)) = none ∧
      tryNonEmpty (reader SepModo.semi payload) = none ∧
      reader SepModo.comma payload = Except.error e) := by
  have hview : viewBuf payload uploaded
      (if uploaded then 0 else payload.length) = payload := by
    cases uploaded with
    | true => simp [viewBuf]
    | false => simp [viewBuf]
  constructor
  · intro t h1 h2 hne
    simp only [read_csv_robusto]
    rw [h1, hview, h2]
    have : tryNonEmpty (Except.ok t) = some t := by
      show (if t.isEmpty = true then none else some t) = some t
      rw [if_neg fun hx => hne (List.isEmpty_iff.mp hx)]
    rw [this]
  · intro e he
    simp only [read_csv_robusto] at he
    rw [hview] at he
    cases h1 : tryNonEmpty (reader SepModo.sniff (viewBuf payload uploaded 0)) with
    | some t => rw [h1] at he; cases he
    | none =>
      rw [h1] at he
      cases h2 : tryNonEmpty (reader SepModo.semi payload) with
      | some t => rw [h2] at he; cases he
      | none =>
        rw [h2] at he
        exact ⟨rfl, rfl, he⟩

/-- Witness for C9: the semicolon payload "a;b\n1;2" (bytes), whose sniff
attempt raises, is ingested by the forced-';' attempt into two two-cell
rows. -/
theorem claim9_fallback_witness :
    read_csv_robusto demoSemiReader [97, 59, 98, 10, 49, 59, 50] true =
      Except.ok [["a", "b"], ["1", "2"]] :=
  (claim9_fallback demoSemiReader [97, 59, 98, 10, 49, 59, 50] true).1
    [["a", "b"], ["1", "2"]] rfl rfl (by decide)

/-- C10: because `to_numeric_safe` removes every '.' before turning ','
into '.', a dot-as-decimal numeral "a.b" is silently reinterpreted as
the concatenation of its digit groups: the parser returns that
concatenated integer, and on the spec's examples "1.5" and "3.14" it
returns 15 and 314 — not the dot-decimal values. -/
theorem claim10_dot_reinterpretation :
    (∀ a b : List ℕ, a ≠ [] → b ≠ [] → (∀ d ∈ a, d < 10) → (∀ d ∈ b, d < 10) →
      to_numeric_safe ⟨a.map digitChr ++ '.' :: b.map digitChr⟩ =
        some (digitsVal (a ++ b) : ℚ)) ∧
    to_numeric_safe "1.5" = some (15 : ℚ) ∧ (15 : ℚ) ≠ 3/2 ∧
    to_numeric_safe "3.14" = some (314 : ℚ) := by
  refine ⟨?_, by with_unfolding_all decide, by norm_num,
    by with_unfolding_all decide⟩
  intro a b ha hb hda hdb
  unfold to_numeric_safe removeDots commaToDot
  simp only [data_mk]
  have h1 : (a.map digitChr ++ '.' :: b.map digitChr).filter
      (fun c => c != '.') = (a ++ b).map digitChr := by
    rw [List.filter_append, filter_ne_dot_map_digitChr hda, List.filter_cons]
    have hdot : (('.' : Char) != '.') = false := by decide
    rw [hdot]
    simp only [Bool.false_eq_true, if_false]
    rw [filter_ne_dot_map_digitChr hdb, ← List.map_append]
  rw [h1]
  have hab : ∀ d ∈ a ++ b, d < 10 := by
    intro d hd
    rcases List.mem_append.mp hd with h | h
    · exact hda d h
    · exact hdb d h
  have h2 : ((a ++ b).map digitChr).map (fun c => if c = ',' then '.' else c) =
      (a ++ b).map digitChr :=
    map_eq_self_of fun c hc => by
      obtain ⟨d, hd, rfl⟩ := List.mem_map.mp hc
      exact if_neg (digitChr_ne_comma (hab d hd))
  rw [h2]
  rw [parseDecimal_digits
    (fun c hc => by
      obtain ⟨d, hd, rfl⟩ := List.mem_map.mp hc
      exact digitChr_isDigit (hab d hd))
    (by
      intro hx
      rw [List.map_eq_nil_iff, List.append_eq_nil] at hx
      exact ha hx.1)]
  rw [digitsToNat_map hab]

/-- Witness for C10: the digit groups [1] and [5] render to "1.5" and the
parser returns the concatenation value 15. -/
theorem claim10_dot_reinterpretation_witness :
    to_numeric_safe ⟨[1].map digitChr ++ '.' :: [5].map digitChr⟩ =
      some (digitsVal ([1] ++ [5]) : ℚ) ∧
    (⟨[1].map digitChr ++ '.' :: [5].map digitChr⟩ : String) = "1.5" ∧
    digitsVal ([1] ++ [5]) = 15 :=
  ⟨claim10_dot_reinterpretation.1 [1] [5] (by decide) (by decide) (by decide)
      (by decide),
   by decide, by decide⟩
